import Mathlib

/-
Shallow embedding of the `RingBufCPP<T, Size>` class from `src/RingBufCPP.h`:
a fixed-capacity FIFO ring buffer with fields `_buf` (backing array of length
`Size`), `_head` (index of the next free write slot) and `_numElements`
(current element count).  C++ `size_t` values are modelled as `Nat`; the
backing array is modelled as a `List` whose length equals the capacity under
the class invariant.  Each public member function is translated directly from
its body; fallible lookups return `Option`.
-/

namespace RingBufCPP

/-- The state of a `RingBufCPP<T, Size>` object: `buf` models `_buf`,
`head` models `_head`, `numElements` models `_numElements`. -/
structure RingBuf (α : Type) (N : Nat) where
  buf : List α
  head : Nat
  numElements : Nat
deriving DecidableEq

variable {α : Type} {N : Nat}

/-- `max_size()`: the capacity `Size` (a compile-time constant). -/
def max_size (N : Nat) : Nat := N

/-- `size()`: returns `_numElements`. -/
def size (s : RingBuf α N) : Nat := s.numElements

/-- `empty()`: `size() == 0`. -/
def empty (s : RingBuf α N) : Bool := decide (size s = 0)

/-- `full()`: `size() >= max_size()`. -/
def full (s : RingBuf α N) : Bool := decide (size s ≥ max_size N)

/-- `clear()`: sets `_numElements = 0` and `_head = 0`, leaving `_buf` alone. -/
def clear (s : RingBuf α N) : RingBuf α N :=
  ⟨s.buf, 0, 0⟩

/-- The constructor `RingBufCPP()` calls `clear()`; `_buf` starts with
whatever (uninitialized) contents `b` the storage happens to hold. -/
def mkRingBuf (b : List α) : RingBuf α N :=
  clear ⟨b, 0, 0⟩

/-- `push(obj, force)`: translated line by line.  `space = !full()`; when
`space || force`, write `obj` at `_head`, increment `_head` with the explicit
wraparound test `if (_head >= max_size()) _head = 0`, and increment
`_numElements` only when there was space.  Returns the C++ `bool` result
paired with the post-state. -/
def push (s : RingBuf α N) (obj : α) (force : Bool) : Bool × RingBuf α N :=
  let space := !(full s)
  if space || force then
    let buf1 := s.buf.set s.head obj
    let head1 := s.head + 1
    let head2 := if head1 ≥ max_size N then 0 else head1
    let num1 := if space then s.numElements + 1 else s.numElements
    (true, ⟨buf1, head2, num1⟩)
  else
    (false, s)

/-- `add(obj, force)`: `return push(obj, force);`. -/
def add (s : RingBuf α N) (obj : α) (force : Bool) : Bool × RingBuf α N :=
  push s obj force

/-- `tail_index()`: `full() ? _head : (_head >= _numElements ? _head -
_numElements : max_size() + _head - _numElements)`.  Both subtractions are
guarded so `Nat` subtraction agrees with the C++ `size_t` arithmetic. -/
def tail_index (s : RingBuf α N) : Nat :=
  if full s then s.head
  else if s.head ≥ s.numElements then s.head - s.numElements
  else max_size N + s.head - s.numElements

/-- `peek(index)`: returns `nullptr` (here `none`) unless `index < size()`,
otherwise a view of `_buf[(tail_index() + index) % max_size()]`.  The
out-of-range lookup `List.get?` can only return `none` when the class
invariant is broken (mirroring C++ undefined behaviour). -/
def peek (s : RingBuf α N) (index : Nat) : Option α :=
  if index < size s then s.buf.get? ((tail_index s + index) % max_size N)
  else none

/-- `poll(destination)`: when non-empty, copies `_buf[tail_index()]` into the
destination and decrements `_numElements`.  The result is the returned
`bool`, the destination's value after the call (unchanged when empty), and
the post-state. -/
def poll (s : RingBuf α N) (destination : α) : Bool × α × RingBuf α N :=
  if !(empty s) then
    (true, s.buf.getD (tail_index s) destination,
      ⟨s.buf, s.head, s.numElements - 1⟩)
  else
    (false, destination, s)

/-- The destination-less overload `poll()`: decrements `_numElements` when
non-empty, discarding the element. -/
def pollDiscard (s : RingBuf α N) : Bool × RingBuf α N :=
  if !(empty s) then
    (true, ⟨s.buf, s.head, s.numElements - 1⟩)
  else
    (false, s)

/-- `pull(destination)`: `destination ? poll(*destination) : poll()`.  The
nullable pointer argument is modelled as `Option α`; the middle component is
the pointee's value after the call, when a pointer was supplied. -/
def pull (s : RingBuf α N) (destination : Option α) : Bool × Option α × RingBuf α N :=
  match destination with
  | some d =>
    let r := poll s d
    (r.1, some r.2.1, r.2.2)
  | none =>
    let r := pollDiscard s
    (r.1, none, r.2)

/-- The class invariant from the spec: the backing store has length `N`,
`0 <= head < N` and `0 <= count <= N` (lower bounds are inherent to `Nat`). -/
def Inv (s : RingBuf α N) : Prop :=
  s.buf.length = N ∧ s.head < N ∧ s.numElements ≤ N

instance (s : RingBuf α N) : Decidable (Inv s) := by
  unfold Inv; infer_instance

/-- One public call, for reachability statements: each constructor applies
the corresponding member function and keeps the post-state. -/
inductive Op (α : Type) where
  | push (v : α) (force : Bool)
  | pollDest (d : α)
  | pollDiscard
  | pull (d : Option α)
  | peek (i : Nat)
  | clear

/-- Apply one public call to a state (peek does not change the state). -/
def applyOp (s : RingBuf α N) (op : Op α) : RingBuf α N :=
  match op with
  | .push v f => (push s v f).2
  | .pollDest d => (poll s d).2.2
  | .pollDiscard => (pollDiscard s).2
  | .pull d => (pull s d).2.2
  | .peek _ => s
  | .clear => clear s

/-- Run a sequence of public calls from a state. -/
def run (s : RingBuf α N) (ops : List (Op α)) : RingBuf α N :=
  ops.foldl applyOp s

/-- Push a list of values in order with `force = false`, recording whether
every push returned true. -/
def pushList (s : RingBuf α N) (vs : List α) : Bool × RingBuf α N :=
  match vs with
  | [] => (true, s)
  | v :: rest =>
    let r := push s v false
    let r2 := pushList r.2 rest
    (r.1 && r2.1, r2.2)

/-- Poll `k` times with a dummy destination `d`, collecting the values the
destinations hold after each call. -/
def pollList (d : α) (s : RingBuf α N) : Nat → List α × RingBuf α N
  | 0 => ([], s)
  | Nat.succ k =>
    let r := poll s d
    let rest := pollList d r.2.2 k
    (r.2.1 :: rest.1, rest.2)

/-- The abstract FIFO contents, oldest first: element `i` lives in backing
slot `(tail_index() + i) % N`.  The default `d` is only used when the class
invariant is broken. -/
def content (d : α) (s : RingBuf α N) : List α :=
  (List.range (size s)).map (fun i => s.buf.getD ((tail_index s + i) % max_size N) d)

/-- The oldest element's slot as the SPEC describes it (section 3): `(head -
count + N) mod N` when not full, and `head` when `count == N`.  Written with
the equal `Nat` expression `head + N - count`; compared against the source's
`tail_index` in the peek-contract theorem. -/
def tail_index_spec (s : RingBuf α N) : Nat :=
  if s.numElements = N then s.head else (s.head + N - s.numElements) % N

/-! ### Arithmetic and list helpers -/

/-- Reduce `a % n` to a subtraction when `a < 2 * n`, so that all the ring
index arithmetic becomes linear. -/
theorem mod_two_cases (a n : Nat) (h : a < 2 * n) :
    a % n = if a < n then a else a - n := by
  split
  · exact Nat.mod_eq_of_lt (by assumption)
  · rw [Nat.mod_eq_sub_mod (by omega)]
    exact Nat.mod_eq_of_lt (by omega)

/-- Reading back the slot just written. -/
theorem getD_set_self (l : List α) (i : Nat) (a d : α) (h : i < l.length) :
    (l.set i a).getD i d = a := by
  simp [List.getD_eq_getElem?_getD, List.getElem?_set_eq_of_lt a h]

/-- Writing one slot leaves every other slot unchanged. -/
theorem getD_set_ne (l : List α) (i j : Nat) (a d : α) (h : i ≠ j) :
    (l.set i a).getD j d = l.getD j d := by
  simp [List.getD_eq_getElem?_getD, List.getElem?_set_ne h]

/-! ### Characterisation of `tail_index` -/

/-- Under the invariant, the three-way conditional of `tail_index()` computes
`(head + N - count) % N`, the slot of the oldest element. -/
theorem tail_index_eq (s : RingBuf α N) (hInv : Inv s) :
    tail_index s = (s.head + N - s.numElements) % N := by
  obtain ⟨hb, hh, hn⟩ := hInv
  rw [mod_two_cases _ _ (by omega)]
  simp only [tail_index, full, size, max_size, ge_iff_le, decide_eq_true_eq]
  split_ifs <;> omega

/-- Under the invariant, `tail_index()` is in range. -/
theorem tail_index_lt (s : RingBuf α N) (hInv : Inv s) : tail_index s < N := by
  obtain ⟨hb, hh, hn⟩ := hInv
  simp only [tail_index, full, size, max_size, ge_iff_le, decide_eq_true_eq]
  split_ifs <;> omega

/-! ### Characterisation of `push` and `poll` on the concrete state -/

/-- When the buffer is not full, `push` (with either force flag) writes at
`head`, advances `head` modulo `N` and increments the count. -/
theorem push_not_full (s : RingBuf α N) (v : α) (f : Bool) (hInv : Inv s)
    (hlt : size s < N) :
    push s v f =
      (true, ⟨s.buf.set s.head v, (s.head + 1) % N, s.numElements + 1⟩) := by
  obtain ⟨hb, hh, hn⟩ := hInv
  have hlt' : s.numElements < N := hlt
  have hspace : full s = false := by
    simp only [full, size, max_size, ge_iff_le, decide_eq_false_iff_not]
    omega
  have hhead : (if s.head + 1 ≥ max_size N then 0 else s.head + 1)
      = (s.head + 1) % N := by
    rw [mod_two_cases _ _ (by omega)]
    simp only [max_size]
    split_ifs <;> omega
  simp [push, hspace, hhead]

/-- When the buffer is full, a forced `push` writes at `head`, advances
`head` modulo `N` and leaves the count unchanged. -/
theorem push_full_force_state (s : RingBuf α N) (v : α) (hInv : Inv s)
    (hfull : size s = N) :
    push s v true =
      (true, ⟨s.buf.set s.head v, (s.head + 1) % N, s.numElements⟩) := by
  obtain ⟨hb, hh, hn⟩ := hInv
  have hfull' : s.numElements = N := hfull
  have hfullb : full s = true := by
    simp only [full, size, max_size, ge_iff_le, decide_eq_true_eq]
    omega
  have hhead : (if s.head + 1 ≥ max_size N then 0 else s.head + 1)
      = (s.head + 1) % N := by
    rw [mod_two_cases _ _ (by omega)]
    simp only [max_size]
    split_ifs <;> omega
  simp [push, hfullb, hhead]

/-- When the buffer is full and the push is not forced, `push` rejects the
value and is a complete no-op. -/
theorem push_full_reject (s : RingBuf α N) (v : α) (hfull : full s = true) :
    push s v false = (false, s) := by
  simp [push, hfull]

/-- `poll` on a non-empty buffer: reads the slot at `tail_index`, decrements
the count, touches neither `head` nor the backing store. -/
theorem poll_nonempty (s : RingBuf α N) (d : α) (hne : 0 < size s) :
    poll s d =
      (true, s.buf.getD (tail_index s) d,
        ⟨s.buf, s.head, s.numElements - 1⟩) := by
  have hne' : 0 < s.numElements := hne
  have hb : empty s = false := by
    simp only [empty, size, decide_eq_false_iff_not]
    omega
  simp [poll, hb]

/-- `poll` on an empty buffer fails and changes nothing, the destination
included. -/
theorem poll_empty_state (s : RingBuf α N) (d : α) (he : size s = 0) :
    poll s d = (false, d, s) := by
  have he' : s.numElements = 0 := he
  have hb : empty s = true := by
    simp only [empty, size, decide_eq_true_eq]
    omega
  simp [poll, hb]

/-- `pollDiscard` on a non-empty buffer: decrements the count only. -/
theorem pollDiscard_nonempty (s : RingBuf α N) (hne : 0 < size s) :
    pollDiscard s = (true, ⟨s.buf, s.head, s.numElements - 1⟩) := by
  have hne' : 0 < s.numElements := hne
  have hb : empty s = false := by
    simp only [empty, size, decide_eq_false_iff_not]
    omega
  simp [pollDiscard, hb]

/-- `pollDiscard` on an empty buffer fails and changes nothing. -/
theorem pollDiscard_empty (s : RingBuf α N) (he : size s = 0) :
    pollDiscard s = (false, s) := by
  have he' : s.numElements = 0 := he
  have hb : empty s = true := by
    simp only [empty, size, decide_eq_true_eq]
    omega
  simp [pollDiscard, hb]

/-! ### The window of slots read by `peek`/`content` -/

/-- The list of values in slots `(t + 0) % NN, ..., (t + k - 1) % NN`. -/
def slots (d : α) (L : List α) (t k NN : Nat) : List α :=
  (List.range k).map (fun i => L.getD ((t + i) % NN) d)

theorem content_eq_slots (d : α) (s : RingBuf α N) :
    content d s = slots d s.buf (tail_index s) s.numElements N := rfl

theorem content_mk (d : α) (L : List α) (h n : Nat) :
    content d (⟨L, h, n⟩ : RingBuf α N)
      = slots d L (tail_index (⟨L, h, n⟩ : RingBuf α N)) n N := rfl

theorem tail_index_mk (L : List α) (h n : Nat) (hb : L.length = N) (hh : h < N)
    (hn : n ≤ N) :
    tail_index (⟨L, h, n⟩ : RingBuf α N) = (h + N - n) % N :=
  tail_index_eq ⟨L, h, n⟩ ⟨hb, hh, hn⟩

theorem slots_zero (d : α) (L : List α) (t NN : Nat) : slots d L t 0 NN = [] := rfl

/-- Splitting off the newest slot. -/
theorem slots_snoc (d : α) (L : List α) (t k NN : Nat) :
    slots d L t (k + 1) NN = slots d L t k NN ++ [L.getD ((t + k) % NN) d] := by
  unfold slots
  rw [List.range_succ, List.map_append]
  rfl

/-- Splitting off the oldest slot. -/
theorem slots_cons (d : α) (L : List α) (t k NN : Nat) :
    slots d L t (k + 1) NN = L.getD (t % NN) d :: slots d L (t + 1) k NN := by
  unfold slots
  rw [List.range_succ_eq_map, List.map_cons, List.map_map]
  congr 1
  apply List.map_congr_left
  intro i _
  show L.getD ((t + Nat.succ i) % NN) d = L.getD ((t + 1 + i) % NN) d
  have harg : t + Nat.succ i = t + 1 + i := by omega
  rw [harg]

/-- A window that avoids the slot being written is unchanged by the write. -/
theorem slots_set_ne (d a : α) (L : List α) (t k NN j : Nat)
    (hne : ∀ i, i < k → (t + i) % NN ≠ j) :
    slots d (L.set j a) t k NN = slots d L t k NN := by
  unfold slots
  apply List.map_congr_left
  intro i hi
  exact getD_set_ne L j ((t + i) % NN) a d (Ne.symm (hne i (List.mem_range.mp hi)))

/-- The window only depends on the start slot modulo `NN`. -/
theorem slots_mod (d : α) (L : List α) (t k NN : Nat) :
    slots d L (t % NN) k NN = slots d L t k NN := by
  unfold slots
  apply List.map_congr_left
  intro i _
  rw [Nat.mod_add_mod]

/-! ### Invariant preservation for every public operation -/

theorem Inv_push (s : RingBuf α N) (v : α) (f : Bool) (hInv : Inv s) :
    Inv (push s v f).2 := by
  obtain ⟨hb, hh, hn⟩ := hInv
  by_cases hlt : size s < N
  · have hlt' : s.numElements < N := hlt
    rw [push_not_full s v f ⟨hb, hh, hn⟩ hlt]
    unfold Inv
    dsimp only
    exact ⟨by simpa using hb, Nat.mod_lt _ (by omega), by omega⟩
  · have hfull : s.numElements = N := by
      have hge : ¬ s.numElements < N := hlt
      omega
    cases f with
    | true =>
      rw [push_full_force_state s v ⟨hb, hh, hn⟩ hfull]
      unfold Inv
      dsimp only
      exact ⟨by simpa using hb, Nat.mod_lt _ (by omega), by omega⟩
    | false =>
      rw [push_full_reject s v (by
        simp only [full, size, max_size, ge_iff_le, decide_eq_true_eq]
        omega)]
      exact ⟨hb, hh, hn⟩

theorem Inv_poll (s : RingBuf α N) (d : α) (hInv : Inv s) :
    Inv (poll s d).2.2 := by
  obtain ⟨hb, hh, hn⟩ := hInv
  by_cases hne : 0 < size s
  · rw [poll_nonempty s d hne]
    unfold Inv
    dsimp only
    exact ⟨hb, hh, by omega⟩
  · rw [poll_empty_state s d (by
      have : ¬ 0 < s.numElements := hne
      show s.numElements = 0
      omega)]
    exact ⟨hb, hh, hn⟩

theorem Inv_pollDiscard (s : RingBuf α N) (hInv : Inv s) :
    Inv (pollDiscard s).2 := by
  obtain ⟨hb, hh, hn⟩ := hInv
  by_cases hne : 0 < size s
  · rw [pollDiscard_nonempty s hne]
    unfold Inv
    dsimp only
    exact ⟨hb, hh, by omega⟩
  · rw [pollDiscard_empty s (by
      have : ¬ 0 < s.numElements := hne
      show s.numElements = 0
      omega)]
    exact ⟨hb, hh, hn⟩

theorem Inv_pull (s : RingBuf α N) (d : Option α) (hInv : Inv s) :
    Inv (pull s d).2.2 := by
  cases d with
  | some d0 => exact Inv_poll s d0 hInv
  | none => exact Inv_pollDiscard s hInv

theorem Inv_clear (s : RingBuf α N) (hInv : Inv s) :
    Inv (clear s : RingBuf α N) := by
  obtain ⟨hb, hh, hn⟩ := hInv
  unfold Inv clear
  dsimp only
  exact ⟨hb, by omega, by omega⟩

theorem Inv_applyOp (s : RingBuf α N) (op : Op α) (hInv : Inv s) :
    Inv (applyOp s op) := by
  cases op with
  | push v f => exact Inv_push s v f hInv
  | pollDest d => exact Inv_poll s d hInv
  | pollDiscard => exact Inv_pollDiscard s hInv
  | pull d => exact Inv_pull s d hInv
  | peek _ => exact hInv
  | clear => exact Inv_clear s hInv

theorem Inv_run (s : RingBuf α N) (ops : List (Op α)) (hInv : Inv s) :
    Inv (run s ops) := by
  induction ops generalizing s with
  | nil => exact hInv
  | cons op rest ih =>
    show Inv (run (applyOp s op) rest)
    exact ih (applyOp s op) (Inv_applyOp s op hInv)

/-! ### How each operation transforms the FIFO contents -/

/-- An empty buffer has no contents. -/
theorem content_of_size_zero (s : RingBuf α N) (d : α) (hz : size s = 0) :
    content d s = [] := by
  unfold content
  rw [hz]
  rfl

/-- The FIFO contents have exactly `size` elements. -/
theorem content_length (s : RingBuf α N) (d : α) :
    (content d s).length = size s := by
  simp [content]

/-- A non-full `push` appends the new value to the FIFO contents. -/
theorem content_push_not_full (s : RingBuf α N) (v : α) (f : Bool) (d : α)
    (hInv : Inv s) (hlt : size s < N) :
    content d (push s v f).2 = content d s ++ [v] := by
  obtain ⟨hb, hh, hn⟩ := hInv
  have hlt' : s.numElements < N := hlt
  have hN : 0 < N := by omega
  rw [push_not_full s v f ⟨hb, hh, hn⟩ hlt]
  dsimp only
  rw [content_mk, content_eq_slots]
  rw [tail_index_mk (s.buf.set s.head v) ((s.head + 1) % N) (s.numElements + 1)
      (by simpa using hb) (Nat.mod_lt _ hN) (by omega)]
  rw [tail_index_eq s ⟨hb, hh, hn⟩]
  have ht : ((s.head + 1) % N + N - (s.numElements + 1)) % N
      = (s.head + N - s.numElements) % N := by
    rw [mod_two_cases (s.head + 1) N (by omega)]
    split_ifs with h1
    · rw [mod_two_cases _ _ (by omega), mod_two_cases _ _ (by omega)]
      split_ifs <;> omega
    · rw [mod_two_cases _ _ (by omega), mod_two_cases _ _ (by omega)]
      split_ifs <;> omega
  rw [ht, slots_snoc]
  congr 1
  · apply slots_set_ne
    intro i hi
    rw [mod_two_cases (s.head + N - s.numElements) N (by omega)]
    split_ifs with h1
    · rw [mod_two_cases _ _ (by omega)]
      split_ifs <;> omega
    · rw [mod_two_cases _ _ (by omega)]
      split_ifs <;> omega
  · have hslot : ((s.head + N - s.numElements) % N + s.numElements) % N = s.head := by
      rw [mod_two_cases (s.head + N - s.numElements) N (by omega)]
      split_ifs with h1
      · rw [mod_two_cases _ _ (by omega)]
        split_ifs <;> omega
      · rw [mod_two_cases _ _ (by omega)]
        split_ifs <;> omega
    rw [hslot, getD_set_self s.buf s.head v d (by omega)]

/-- A forced `push` on a full buffer discards the oldest element and appends
the new value. -/
theorem content_push_full_force (s : RingBuf α N) (v d : α) (hInv : Inv s)
    (hfull : size s = N) :
    content d (push s v true).2 = (content d s).drop 1 ++ [v] := by
  obtain ⟨hb, hh, hn⟩ := hInv
  have hfull' : s.numElements = N := hfull
  have hN : 0 < N := by omega
  rw [push_full_force_state s v ⟨hb, hh, hn⟩ hfull]
  dsimp only
  rw [content_mk, content_eq_slots]
  rw [tail_index_mk (s.buf.set s.head v) ((s.head + 1) % N) s.numElements
      (by simpa using hb) (Nat.mod_lt _ hN) (by omega)]
  rw [tail_index_eq s ⟨hb, hh, hn⟩]
  have ht' : ((s.head + 1) % N + N - s.numElements) % N = (s.head + 1) % N := by
    rw [mod_two_cases (s.head + 1) N (by omega)]
    split_ifs with h1
    · rw [mod_two_cases _ _ (by omega)]
      split_ifs <;> omega
    · rw [mod_two_cases _ _ (by omega)]
      split_ifs <;> omega
  have ht : (s.head + N - s.numElements) % N = s.head := by
    rw [mod_two_cases _ _ (by omega)]
    split_ifs <;> omega
  rw [ht', ht]
  obtain ⟨m, hm⟩ : ∃ m, s.numElements = m + 1 := ⟨s.numElements - 1, by omega⟩
  rw [hm, slots_snoc, slots_cons]
  rw [List.drop_succ_cons, List.drop_zero]
  congr 1
  · rw [← slots_mod d s.buf (s.head + 1) m N]
    apply slots_set_ne
    intro i hi
    rw [mod_two_cases (s.head + 1) N (by omega)]
    split_ifs with h1
    · rw [mod_two_cases _ _ (by omega)]
      split_ifs <;> omega
    · rw [mod_two_cases _ _ (by omega)]
      split_ifs <;> omega
  · have hslot : ((s.head + 1) % N + m) % N = s.head := by
      rw [mod_two_cases (s.head + 1) N (by omega)]
      split_ifs with h1
      · rw [mod_two_cases _ _ (by omega)]
        split_ifs <;> omega
      · rw [mod_two_cases _ _ (by omega)]
        split_ifs <;> omega
    rw [hslot, getD_set_self s.buf s.head v d (by omega)]

/-- `poll` removes and returns the head of the FIFO contents. -/
theorem content_poll (s : RingBuf α N) (d : α) (hInv : Inv s)
    (hne : 0 < size s) :
    content d s = (poll s d).2.1 :: content d (poll s d).2.2 := by
  obtain ⟨hb, hh, hn⟩ := hInv
  have hne' : 0 < s.numElements := hne
  have hN : 0 < N := by omega
  rw [poll_nonempty s d hne]
  dsimp only
  rw [content_mk, content_eq_slots]
  rw [tail_index_mk s.buf s.head (s.numElements - 1) hb hh (by omega)]
  rw [tail_index_eq s ⟨hb, hh, hn⟩]
  obtain ⟨m, hm⟩ : ∃ m, s.numElements = m + 1 := ⟨s.numElements - 1, by omega⟩
  rw [hm]
  simp only [Nat.add_sub_cancel]
  rw [slots_cons]
  rw [Nat.mod_eq_of_lt (Nat.mod_lt _ hN)]
  congr 1
  have harg : ((s.head + N - (m + 1)) % N + 1) % N = (s.head + N - m) % N := by
    rw [mod_two_cases (s.head + N - (m + 1)) N (by omega)]
    split_ifs with h1
    · rw [mod_two_cases _ _ (by omega), mod_two_cases _ _ (by omega)]
      split_ifs <;> omega
    · rw [mod_two_cases _ _ (by omega), mod_two_cases _ _ (by omega)]
      split_ifs <;> omega
  rw [← slots_mod d s.buf ((s.head + N - (m + 1)) % N + 1) m N, harg]

/-! ### Whole-sequence lemmas -/

/-- Pushing a list of values into a buffer with enough free space: every push
returns true and the values are appended to the FIFO contents in order. -/
theorem pushList_spec (s : RingBuf α N) (vs : List α) (d : α) (hInv : Inv s)
    (hle : size s + vs.length ≤ N) :
    (pushList s vs).1 = true ∧ Inv (pushList s vs).2 ∧
    size (pushList s vs).2 = size s + vs.length ∧
    content d (pushList s vs).2 = content d s ++ vs := by
  induction vs generalizing s with
  | nil => exact ⟨rfl, hInv, by simp [pushList, size], by simp [pushList]⟩
  | cons v rest ih =>
    have hlen : (v :: rest).length = rest.length + 1 := by simp
    rw [hlen] at hle
    have hlt : size s < N := by omega
    have hps := push_not_full s v false hInv hlt
    have hInv1 : Inv (push s v false).2 := Inv_push s v false hInv
    have hsz1 : size (push s v false).2 = size s + 1 := by
      rw [hps]
      rfl
    have hct1 : content d (push s v false).2 = content d s ++ [v] :=
      content_push_not_full s v false d hInv hlt
    have hb1 : (push s v false).1 = true := by rw [hps]
    obtain ⟨ih1, ih2, ih3, ih4⟩ :=
      ih (push s v false).2 hInv1 (by rw [hsz1]; omega)
    refine ⟨?_, ih2, ?_, ?_⟩
    · show ((push s v false).1 && (pushList (push s v false).2 rest).1) = true
      rw [hb1, ih1]
      rfl
    · show size (pushList (push s v false).2 rest).2 = size s + (v :: rest).length
      rw [ih3, hsz1, hlen]
      omega
    · show content d (pushList (push s v false).2 rest).2 = content d s ++ v :: rest
      rw [ih4, hct1]
      simp

/-- Polling exactly `size` times drains the buffer and returns the FIFO
contents in order. -/
theorem pollList_spec (s : RingBuf α N) (d : α) (k : Nat) (hInv : Inv s)
    (hk : size s = k) :
    (pollList d s k).1 = content d s ∧ Inv (pollList d s k).2 ∧
    size (pollList d s k).2 = 0 := by
  induction k generalizing s with
  | zero => exact ⟨(content_of_size_zero s d hk).symm, hInv, hk⟩
  | succ k ih =>
    have hk' : s.numElements = k + 1 := hk
    have hne : 0 < size s := by
      show 0 < s.numElements
      omega
    have hct := content_poll s d hInv hne
    have hInv1 : Inv (poll s d).2.2 := Inv_poll s d hInv
    have hsz1 : size (poll s d).2.2 = k := by
      rw [poll_nonempty s d hne]
      show s.numElements - 1 = k
      omega
    obtain ⟨ih1, ih2, ih3⟩ := ih (poll s d).2.2 hInv1 hsz1
    refine ⟨?_, ih2, ih3⟩
    show (poll s d).2.1 :: (pollList d (poll s d).2.2 k).1 = content d s
    rw [ih1, hct]

/-! ### Claim theorems -/

/-- Under the invariant the source's `tail_index()` computes exactly the slot
the spec describes. -/
theorem tail_index_spec_eq (s : RingBuf α N) (hInv : Inv s) :
    tail_index_spec s = tail_index s := by
  obtain ⟨hb, hh, hn⟩ := hInv
  rw [tail_index_eq s ⟨hb, hh, hn⟩]
  unfold tail_index_spec
  split_ifs with h1
  · rw [mod_two_cases (s.head + N - s.numElements) N (by omega)]
    split_ifs <;> omega
  · rfl

/-- C4: push on a non-full buffer — for every state with `count = k < N` and
every value `v` (with either force flag), `push(v)` writes `v` into
`store[head]`, sets `head` to `(head + 1) mod N`, increments the count so
that `size()` is `k + 1`, and returns true. -/
theorem claim_C4_push_not_full (s : RingBuf α N) (v : α) (f : Bool) (k : Nat)
    (hInv : Inv s) (hk : size s = k) (hlt : k < N) :
    (push s v f).1 = true ∧
    (push s v f).2.buf = s.buf.set s.head v ∧
    (push s v f).2.head = (s.head + 1) % N ∧
    size (push s v f).2 = k + 1 := by
  have hs : size s < N := by omega
  have hstate := push_not_full s v f hInv hs
  refine ⟨by rw [hstate], by rw [hstate], by rw [hstate], ?_⟩
  rw [hstate]
  show s.numElements + 1 = k + 1
  have hk' : s.numElements = k := hk
  omega

/-- C5: rejected push is a no-op — on a full buffer, `push(v, force=false)`
returns false and leaves head, count and every element of the backing store
unchanged (the entire state is returned as it was). -/
theorem claim_C5_push_reject_noop (s : RingBuf α N) (v : α)
    (hfull : size s = max_size N) :
    push s v false = (false, s) := by
  apply push_full_reject
  simp only [full, ge_iff_le, decide_eq_true_eq]
  exact hfull.ge

/-- C3: force-push on a full buffer — `push(v, force=true)` writes `v` into
`store[head]`, advances `head` by one modulo `N`, keeps `count = N`, returns
true, discards the previously-oldest element (the FIFO contents become the
old contents without their head, with `v` appended), and afterwards
`peek(N-1)` yields `v`. -/
theorem claim_C3_force_push_full (s : RingBuf α N) (v d : α) (hInv : Inv s)
    (hfull : size s = N) :
    (push s v true).1 = true ∧
    (push s v true).2.buf = s.buf.set s.head v ∧
    (push s v true).2.head = (s.head + 1) % N ∧
    size (push s v true).2 = N ∧
    content d (push s v true).2 = (content d s).drop 1 ++ [v] ∧
    peek (push s v true).2 (N - 1) = some v := by
  have hstate := push_full_force_state s v hInv hfull
  have hcontent := content_push_full_force s v d hInv hfull
  obtain ⟨hb, hh, hn⟩ := hInv
  have hfull' : s.numElements = N := hfull
  have hN : 0 < N := by omega
  refine ⟨by rw [hstate], by rw [hstate], by rw [hstate],
    by rw [hstate]; exact hfull, hcontent, ?_⟩
  rw [hstate]
  dsimp only
  have hful2 : full (⟨s.buf.set s.head v, (s.head + 1) % N, s.numElements⟩ :
      RingBuf α N) = true := by
    simp only [full, size, max_size, ge_iff_le, decide_eq_true_eq]
    show N ≤ s.numElements
    omega
  have ht2 : tail_index (⟨s.buf.set s.head v, (s.head + 1) % N, s.numElements⟩ :
      RingBuf α N) = (s.head + 1) % N := by
    unfold tail_index
    rw [hful2]
    rfl
  unfold peek
  rw [if_pos (show N - 1 < size (⟨s.buf.set s.head v, (s.head + 1) % N,
      s.numElements⟩ : RingBuf α N) by
    show N - 1 < s.numElements
    omega)]
  rw [ht2]
  have hslot : ((s.head + 1) % N + (N - 1)) % max_size N = s.head := by
    show ((s.head + 1) % N + (N - 1)) % N = s.head
    rw [mod_two_cases (s.head + 1) N (by omega)]
    split_ifs with h1
    · rw [mod_two_cases (s.head + 1 + (N - 1)) N (by omega)]
      split_ifs <;> omega
    · rw [mod_two_cases (s.head + 1 - N + (N - 1)) N (by omega)]
      split_ifs <;> omega
  rw [hslot]
  dsimp only
  rw [List.get?_eq_getElem?]
  exact List.getElem?_set_eq_of_lt v (by rw [hb]; omega)

/-- C6: peek contract — `peek(index)` returns none exactly when
`index >= size()`; otherwise it returns the element at backing slot
`(tail_index_spec + index) mod N` (with `tail_index_spec` the slot the spec
describes: `(head - count + N) mod N` when not full, `head` when full), which
is the index-th oldest element of the FIFO contents; and peek never mutates
the state. -/
theorem claim_C6_peek_contract (s : RingBuf α N) (index : Nat) (d : α)
    (hInv : Inv s) :
    (peek s index = none ↔ index ≥ size s) ∧
    (index < size s →
      peek s index = s.buf.get? ((tail_index_spec s + index) % max_size N)) ∧
    (index < size s → peek s index = (content d s).get? index) ∧
    applyOp s (Op.peek index) = s := by
  obtain ⟨hb, hh, hn⟩ := hInv
  have hN : 0 < N := by omega
  have hslot : ∀ j : Nat, (tail_index s + j) % max_size N < s.buf.length := by
    intro j
    show (tail_index s + j) % N < s.buf.length
    have := Nat.mod_lt (tail_index s + j) hN
    omega
  refine ⟨⟨?_, ?_⟩, ?_, ?_, rfl⟩
  · intro hnone
    by_contra hcon
    have hi : index < size s := by omega
    unfold peek at hnone
    rw [if_pos hi, List.get?_eq_getElem?,
      List.getElem?_eq_getElem (hslot index)] at hnone
    exact Option.noConfusion hnone
  · intro hge
    unfold peek
    rw [if_neg (by omega)]
  · intro hi
    unfold peek
    rw [if_pos hi, tail_index_spec_eq s ⟨hb, hh, hn⟩]
  · intro hi
    unfold peek content
    rw [if_pos hi]
    simp only [List.get?_eq_getElem?]
    rw [List.getElem?_eq_getElem (hslot index)]
    rw [List.getElem?_map]
    rw [List.getElem?_range hi]
    dsimp only [Option.map_some']
    congr 1
    rw [List.getD_eq_getElem?_getD, List.getElem?_eq_getElem (hslot index)]
    rfl

/-- C7: pop contract — on a non-empty buffer `poll(destination)` copies the
oldest element (the one at `tail_index()`, the head of the FIFO contents)
into the destination, decrements the count by one and returns true; on an
empty buffer it returns false and leaves the destination untouched.  In both
cases the backing store is unmodified. -/
theorem claim_C7_poll_contract (s : RingBuf α N) (d : α) (hInv : Inv s) :
    (0 < size s →
      poll s d = (true, s.buf.getD (tail_index s) d,
        ⟨s.buf, s.head, s.numElements - 1⟩) ∧
      size (poll s d).2.2 = size s - 1 ∧
      content d s = (poll s d).2.1 :: content d (poll s d).2.2) ∧
    (size s = 0 → poll s d = (false, d, s)) ∧
    (poll s d).2.2.buf = s.buf := by
  refine ⟨?_, poll_empty_state s d, ?_⟩
  · intro hne
    refine ⟨poll_nonempty s d hne, ?_, content_poll s d hInv hne⟩
    rw [poll_nonempty s d hne]
    rfl
  · by_cases hne : 0 < size s
    · rw [poll_nonempty s d hne]
    · rw [poll_empty_state s d (by omega)]

/-- C8: no out-of-range access — under the invariant, every index used to
read or write the backing store is in bounds: `head` (the slot written by
push), `tail_index()` (the slot read by poll) and `(tail_index() + index)
mod N` for every `index < size()` (the slot read by peek). -/
theorem claim_C8_no_out_of_range (s : RingBuf α N) (hInv : Inv s) :
    s.head < s.buf.length ∧
    tail_index s < s.buf.length ∧
    (∀ index, index < size s →
      (tail_index s + index) % max_size N < s.buf.length) := by
  obtain ⟨hb, hh, hn⟩ := hInv
  have hN : 0 < N := by omega
  have htail := tail_index_lt s ⟨hb, hh, hn⟩
  refine ⟨by omega, by omega, ?_⟩
  intro index _
  show (tail_index s + index) % N < s.buf.length
  have := Nat.mod_lt (tail_index s + index) hN
  omega

/-- C10: alias equivalence — `add` returns the same result and post-state as
`push`; `pull` with a destination behaves exactly as `poll(*destination)`;
`pull` with no destination behaves exactly as the destination-less `poll()`,
which agrees with `poll(destination)` on result and post-state, decrements
the count and returns true exactly when the buffer is non-empty, and never
touches the backing store. -/
theorem claim_C10_alias_equivalence (s : RingBuf α N) (v d : α) (f : Bool) :
    add s v f = push s v f ∧
    pull s (some d) = ((poll s d).1, some (poll s d).2.1, (poll s d).2.2) ∧
    pull s none = ((pollDiscard s).1, none, (pollDiscard s).2) ∧
    pollDiscard s = ((poll s d).1, (poll s d).2.2) ∧
    ((pollDiscard s).1 = true ↔ 0 < size s) ∧
    (pollDiscard s).2.buf = s.buf ∧
    (0 < size s → size (pollDiscard s).2 = size s - 1) ∧
    (size s = 0 → pollDiscard s = (false, s)) := by
  have hpd : pollDiscard s = ((poll s d).1, (poll s d).2.2) := by
    by_cases hne : 0 < size s
    · rw [pollDiscard_nonempty s hne, poll_nonempty s d hne]
    · rw [pollDiscard_empty s (by omega), poll_empty_state s d (by omega)]
  refine ⟨rfl, rfl, rfl, hpd, ?_, ?_, ?_, fun hz => pollDiscard_empty s hz⟩
  · by_cases hne : 0 < size s
    · rw [pollDiscard_nonempty s hne]
      exact ⟨fun _ => hne, fun _ => rfl⟩
    · rw [pollDiscard_empty s (by omega)]
      exact ⟨fun hfalse => Bool.noConfusion hfalse, fun h0 => absurd h0 hne⟩
  · by_cases hne : 0 < size s
    · rw [pollDiscard_nonempty s hne]
    · rw [pollDiscard_empty s (by omega)]
  · intro hne
    rw [pollDiscard_nonempty s hne]
    show s.numElements - 1 = size s - 1
    rfl

/-- C1: round-trip — starting from an empty buffer of capacity `N ≥ 1`,
pushing `N` distinct values with `force = false` succeeds every time
(`push` returns true `N` times), and then popping `N` times via `poll`
yields exactly the same `N` values in the same order; afterwards the buffer
is empty: `empty()` returns true and `size()` returns 0. -/
theorem claim_C1_round_trip (b vs : List α) (d : α) (hN : 1 ≤ N)
    (hb : b.length = N) (hvs : vs.length = N) (_hdistinct : vs.Nodup) :
    (pushList (mkRingBuf b : RingBuf α N) vs).1 = true ∧
    (pollList d (pushList (mkRingBuf b : RingBuf α N) vs).2 N).1 = vs ∧
    empty (pollList d (pushList (mkRingBuf b : RingBuf α N) vs).2 N).2 = true ∧
    size (pollList d (pushList (mkRingBuf b : RingBuf α N) vs).2 N).2 = 0 := by
  have hInv0 : Inv (mkRingBuf b : RingBuf α N) :=
    ⟨hb, (by omega : 0 < N), (by omega : (0 : Nat) ≤ N)⟩
  have hsz0 : size (mkRingBuf b : RingBuf α N) = 0 := rfl
  obtain ⟨hp1, hp2, hp3, hp4⟩ :=
    pushList_spec (mkRingBuf b) vs d hInv0 (by rw [hsz0]; omega)
  have hct0 : content d (mkRingBuf b : RingBuf α N) = [] :=
    content_of_size_zero _ d hsz0
  rw [hct0, List.nil_append] at hp4
  obtain ⟨hq1, hq2, hq3⟩ :=
    pollList_spec (pushList (mkRingBuf b) vs).2 d N hp2
      (by rw [hp3, hsz0, hvs]; omega)
  refine ⟨hp1, ?_, ?_, hq3⟩
  · rw [hq1, hp4]
  · simp only [empty, hq3]
    rfl

/-- C2: invariant preservation — for every capacity `N ≥ 1` and every state
reachable from a freshly constructed buffer by any sequence of push (forced
or not), poll (with or without destination), pull, peek and clear calls, the
backing store keeps length `N`, `head < N` and `count ≤ N` hold, and in
particular `size()` never exceeds `max_size()` (non-negativity is inherent
to `Nat`). -/
theorem claim_C2_invariant_reachable (b : List α) (ops : List (Op α))
    (hN : 1 ≤ N) (hb : b.length = N) :
    Inv (run (mkRingBuf b : RingBuf α N) ops) ∧
    (run (mkRingBuf b : RingBuf α N) ops).head < N ∧
    (run (mkRingBuf b : RingBuf α N) ops).numElements ≤ N ∧
    size (run (mkRingBuf b : RingBuf α N) ops) ≤ max_size N := by
  have hInv0 : Inv (mkRingBuf b : RingBuf α N) :=
    ⟨hb, (by omega : 0 < N), (by omega : (0 : Nat) ≤ N)⟩
  have h := Inv_run (mkRingBuf b) ops hInv0
  exact ⟨h, h.2.1, h.2.2, h.2.2⟩

/-! ### Concrete witnesses for the claim theorems -/

/-- Witness for C1 at a concrete input: capacity 3, values 10, 20, 30. -/
theorem claim_C1_round_trip_witness :
    (1 ≤ 3 ∧ ([0, 0, 0] : List Nat).length = 3 ∧
      ([10, 20, 30] : List Nat).length = 3 ∧ ([10, 20, 30] : List Nat).Nodup) ∧
    ((pushList (mkRingBuf [0, 0, 0] : RingBuf Nat 3) [10, 20, 30]).1 = true ∧
      (pollList 7 (pushList (mkRingBuf [0, 0, 0] : RingBuf Nat 3)
        [10, 20, 30]).2 3).1 = [10, 20, 30] ∧
      empty (pollList 7 (pushList (mkRingBuf [0, 0, 0] : RingBuf Nat 3)
        [10, 20, 30]).2 3).2 = true ∧
      size (pollList 7 (pushList (mkRingBuf [0, 0, 0] : RingBuf Nat 3)
        [10, 20, 30]).2 3).2 = 0) :=
  ⟨⟨by decide, by decide, by decide, by decide⟩,
    @claim_C1_round_trip Nat 3 [0, 0, 0] [10, 20, 30] 7 (by decide) (by decide)
      (by decide) (by decide)⟩

/-- Witness for C2 at a concrete input: capacity 3 and a call sequence that
exercises every public operation. -/
theorem claim_C2_invariant_reachable_witness :
    (1 ≤ 3 ∧ ([0, 0, 0] : List Nat).length = 3) ∧
    (Inv (run (mkRingBuf [0, 0, 0] : RingBuf Nat 3)
        [Op.push 5 false, Op.push 6 true, Op.peek 1, Op.pollDest 0,
          Op.pull (some 0), Op.pull none, Op.pollDiscard, Op.clear,
          Op.push 7 false]) ∧
      (run (mkRingBuf [0, 0, 0] : RingBuf Nat 3)
        [Op.push 5 false, Op.push 6 true, Op.peek 1, Op.pollDest 0,
          Op.pull (some 0), Op.pull none, Op.pollDiscard, Op.clear,
          Op.push 7 false]).head < 3 ∧
      (run (mkRingBuf [0, 0, 0] : RingBuf Nat 3)
        [Op.push 5 false, Op.push 6 true, Op.peek 1, Op.pollDest 0,
          Op.pull (some 0), Op.pull none, Op.pollDiscard, Op.clear,
          Op.push 7 false]).numElements ≤ 3 ∧
      size (run (mkRingBuf [0, 0, 0] : RingBuf Nat 3)
        [Op.push 5 false, Op.push 6 true, Op.peek 1, Op.pollDest 0,
          Op.pull (some 0), Op.pull none, Op.pollDiscard, Op.clear,
          Op.push 7 false]) ≤ max_size 3) :=
  ⟨⟨by decide, by decide⟩,
    @claim_C2_invariant_reachable Nat 3 [0, 0, 0]
      [Op.push 5 false, Op.push 6 true, Op.peek 1, Op.pollDest 0,
        Op.pull (some 0), Op.pull none, Op.pollDiscard, Op.clear,
        Op.push 7 false] (by decide) (by decide)⟩

/-- Witness for C3 at a concrete input: a full capacity-3 buffer. -/
theorem claim_C3_force_push_full_witness :
    (Inv (⟨[4, 5, 6], 0, 3⟩ : RingBuf Nat 3) ∧
      size (⟨[4, 5, 6], 0, 3⟩ : RingBuf Nat 3) = 3) ∧
    ((push (⟨[4, 5, 6], 0, 3⟩ : RingBuf Nat 3) 7 true).1 = true ∧
      (push (⟨[4, 5, 6], 0, 3⟩ : RingBuf Nat 3) 7 true).2.buf =
        (⟨[4, 5, 6], 0, 3⟩ : RingBuf Nat 3).buf.set
          (⟨[4, 5, 6], 0, 3⟩ : RingBuf Nat 3).head 7 ∧
      (push (⟨[4, 5, 6], 0, 3⟩ : RingBuf Nat 3) 7 true).2.head =
        ((⟨[4, 5, 6], 0, 3⟩ : RingBuf Nat 3).head + 1) % 3 ∧
      size (push (⟨[4, 5, 6], 0, 3⟩ : RingBuf Nat 3) 7 true).2 = 3 ∧
      content 0 (push (⟨[4, 5, 6], 0, 3⟩ : RingBuf Nat 3) 7 true).2 =
        (content 0 (⟨[4, 5, 6], 0, 3⟩ : RingBuf Nat 3)).drop 1 ++ [7] ∧
      peek (push (⟨[4, 5, 6], 0, 3⟩ : RingBuf Nat 3) 7 true).2 (3 - 1) =
        some 7) :=
  ⟨⟨by decide, by decide⟩,
    claim_C3_force_push_full (⟨[4, 5, 6], 0, 3⟩ : RingBuf Nat 3) 7 0
      (by decide) (by decide)⟩

/-- Witness for C4 at a concrete input: a capacity-3 buffer holding one
element. -/
theorem claim_C4_push_not_full_witness :
    (Inv (⟨[1, 2, 3], 1, 1⟩ : RingBuf Nat 3) ∧
      size (⟨[1, 2, 3], 1, 1⟩ : RingBuf Nat 3) = 1 ∧ 1 < 3) ∧
    ((push (⟨[1, 2, 3], 1, 1⟩ : RingBuf Nat 3) 9 false).1 = true ∧
      (push (⟨[1, 2, 3], 1, 1⟩ : RingBuf Nat 3) 9 false).2.buf =
        (⟨[1, 2, 3], 1, 1⟩ : RingBuf Nat 3).buf.set
          (⟨[1, 2, 3], 1, 1⟩ : RingBuf Nat 3).head 9 ∧
      (push (⟨[1, 2, 3], 1, 1⟩ : RingBuf Nat 3) 9 false).2.head =
        ((⟨[1, 2, 3], 1, 1⟩ : RingBuf Nat 3).head + 1) % 3 ∧
      size (push (⟨[1, 2, 3], 1, 1⟩ : RingBuf Nat 3) 9 false).2 = 1 + 1) :=
  ⟨⟨by decide, by decide, by decide⟩,
    claim_C4_push_not_full (⟨[1, 2, 3], 1, 1⟩ : RingBuf Nat 3) 9 false 1
      (by decide) (by decide) (by decide)⟩

/-- Witness for C5 at a concrete input: a full capacity-3 buffer. -/
theorem claim_C5_push_reject_noop_witness :
    size (⟨[1, 2, 3], 0, 3⟩ : RingBuf Nat 3) = max_size 3 ∧
    push (⟨[1, 2, 3], 0, 3⟩ : RingBuf Nat 3) 9 false =
      (false, (⟨[1, 2, 3], 0, 3⟩ : RingBuf Nat 3)) :=
  ⟨by decide,
    claim_C5_push_reject_noop (⟨[1, 2, 3], 0, 3⟩ : RingBuf Nat 3) 9 (by decide)⟩

/-- Witness for C6 at a concrete input: a wrapped capacity-3 buffer holding
two elements, peeked at index 1. -/
theorem claim_C6_peek_contract_witness :
    Inv (⟨[1, 2, 3], 1, 2⟩ : RingBuf Nat 3) ∧
    ((peek (⟨[1, 2, 3], 1, 2⟩ : RingBuf Nat 3) 1 = none ↔
        1 ≥ size (⟨[1, 2, 3], 1, 2⟩ : RingBuf Nat 3)) ∧
      (1 < size (⟨[1, 2, 3], 1, 2⟩ : RingBuf Nat 3) →
        peek (⟨[1, 2, 3], 1, 2⟩ : RingBuf Nat 3) 1 =
          (⟨[1, 2, 3], 1, 2⟩ : RingBuf Nat 3).buf.get?
            ((tail_index_spec (⟨[1, 2, 3], 1, 2⟩ : RingBuf Nat 3) + 1) %
              max_size 3)) ∧
      (1 < size (⟨[1, 2, 3], 1, 2⟩ : RingBuf Nat 3) →
        peek (⟨[1, 2, 3], 1, 2⟩ : RingBuf Nat 3) 1 =
          (content 0 (⟨[1, 2, 3], 1, 2⟩ : RingBuf Nat 3)).get? 1) ∧
      applyOp (⟨[1, 2, 3], 1, 2⟩ : RingBuf Nat 3) (Op.peek 1) =
        (⟨[1, 2, 3], 1, 2⟩ : RingBuf Nat 3)) :=
  ⟨by decide,
    claim_C6_peek_contract (⟨[1, 2, 3], 1, 2⟩ : RingBuf Nat 3) 1 0 (by decide)⟩

/-- Witness for C7 at a concrete input: a wrapped capacity-3 buffer holding
two elements. -/
theorem claim_C7_poll_contract_witness :
    Inv (⟨[4, 5, 6], 2, 2⟩ : RingBuf Nat 3) ∧
    ((0 < size (⟨[4, 5, 6], 2, 2⟩ : RingBuf Nat 3) →
        poll (⟨[4, 5, 6], 2, 2⟩ : RingBuf Nat 3) 9 =
          (true, (⟨[4, 5, 6], 2, 2⟩ : RingBuf Nat 3).buf.getD
              (tail_index (⟨[4, 5, 6], 2, 2⟩ : RingBuf Nat 3)) 9,
            ⟨(⟨[4, 5, 6], 2, 2⟩ : RingBuf Nat 3).buf,
              (⟨[4, 5, 6], 2, 2⟩ : RingBuf Nat 3).head,
              (⟨[4, 5, 6], 2, 2⟩ : RingBuf Nat 3).numElements - 1⟩) ∧
        size (poll (⟨[4, 5, 6], 2, 2⟩ : RingBuf Nat 3) 9).2.2 =
          size (⟨[4, 5, 6], 2, 2⟩ : RingBuf Nat 3) - 1 ∧
        content 9 (⟨[4, 5, 6], 2, 2⟩ : RingBuf Nat 3) =
          (poll (⟨[4, 5, 6], 2, 2⟩ : RingBuf Nat 3) 9).2.1 ::
            content 9 (poll (⟨[4, 5, 6], 2, 2⟩ : RingBuf Nat 3) 9).2.2) ∧
      (size (⟨[4, 5, 6], 2, 2⟩ : RingBuf Nat 3) = 0 →
        poll (⟨[4, 5, 6], 2, 2⟩ : RingBuf Nat 3) 9 =
          (false, 9, (⟨[4, 5, 6], 2, 2⟩ : RingBuf Nat 3))) ∧
      (poll (⟨[4, 5, 6], 2, 2⟩ : RingBuf Nat 3) 9).2.2.buf =
        (⟨[4, 5, 6], 2, 2⟩ : RingBuf Nat 3).buf) :=
  ⟨by decide,
    claim_C7_poll_contract (⟨[4, 5, 6], 2, 2⟩ : RingBuf Nat 3) 9 (by decide)⟩

/-- Witness for C8 at a concrete input: a full capacity-3 buffer with head in
the middle. -/
theorem claim_C8_no_out_of_range_witness :
    Inv (⟨[1, 2, 3], 2, 3⟩ : RingBuf Nat 3) ∧
    ((⟨[1, 2, 3], 2, 3⟩ : RingBuf Nat 3).head <
        (⟨[1, 2, 3], 2, 3⟩ : RingBuf Nat 3).buf.length ∧
      tail_index (⟨[1, 2, 3], 2, 3⟩ : RingBuf Nat 3) <
        (⟨[1, 2, 3], 2, 3⟩ : RingBuf Nat 3).buf.length ∧
      (∀ index, index < size (⟨[1, 2, 3], 2, 3⟩ : RingBuf Nat 3) →
        (tail_index (⟨[1, 2, 3], 2, 3⟩ : RingBuf Nat 3) + index) % max_size 3 <
          (⟨[1, 2, 3], 2, 3⟩ : RingBuf Nat 3).buf.length)) :=
  ⟨by decide,
    claim_C8_no_out_of_range (⟨[1, 2, 3], 2, 3⟩ : RingBuf Nat 3) (by decide)⟩

end RingBufCPP
